import Mathlib

/-!
Verification of `blkcache/microbench_hashmap.cc`: a shallow embedding of the
benchmark harness and of the baseline `SimpleHashMap` (an `unordered_map`
guarded by one reader-writer lock), plus the `ScalableHashMap` wrapper.

The C++ `std::unordered_map<int, string>` is embedded as an association list
`List (Int × String)` holding at most one entry per key (the uniqueness
invariant is proved below).  Every operation of the source holds the map's
single RWMutex for its entire body, so concurrent executions are modelled as
interleavings of whole (atomic) operations.
-/

namespace Microbench

/-- The baseline map state: `std::unordered_map<int, string>` as an
association list of (key, value) pairs. -/
abbrev SMap := List (Int × String)

/-- Predicate used for `map_.find(key)`: entry `p` has key `k`. -/
def keyMatch (k : Int) (p : Int × String) : Bool :=
  p.1 == k

/-- `map_.find(key)`: the stored value for `k`, if any. -/
def smFind (m : SMap) (k : Int) : Option String :=
  (m.find? (keyMatch k)).map Prod.snd

/-- `map_.find(key) != map_.end()`: is key `k` present? -/
def memKey (m : SMap) (k : Int) : Bool :=
  (m.find? (keyMatch k)).isSome

/-- `SimpleHashMap::Insert`: `map_.insert(make_pair(key, val)); return true;`
`std::unordered_map::insert` is a no-op when the key is already present, and
the return value of the C++ function is unconditionally `true`. -/
def smInsert (m : SMap) (k : Int) (v : String) : Bool × SMap :=
  (true, if (m.find? (keyMatch k)).isSome then m else (k, v) :: m)

/-- `SimpleHashMap::Erase`: `find` the key; if absent return `false`,
otherwise erase the found entry and return `true`. -/
def smErase (m : SMap) (k : Int) : Bool × SMap :=
  match m.find? (keyMatch k) with
  | some _ => (true, m.eraseP (keyMatch k))
  | none => (false, m)

/-- `SimpleHashMap::Lookup`: `return map_.find(key) != map_.end();` under a
read lock.  The result is the found flag, the final contents of the caller's
`*val` buffer, and the final map state: the body never writes through `val`
and never mutates the map. -/
def smLookup (m : SMap) (k : Int) (val : String) : Bool × String × SMap :=
  ((m.find? (keyMatch k)).isSome, val, m)

/-- Number of live entries with key `k`. -/
def countKey (m : SMap) (k : Int) : Nat :=
  (m.filter (keyMatch k)).length

/-- An operation issued against the baseline map.  Each C++ operation holds
the map's RWMutex for its whole body, so an execution is a sequence of these
atomic operations. -/
inductive Op where
  | ins (k : Int) (v : String)
  | er (k : Int)
  | look (k : Int)
deriving DecidableEq

/-- State change performed by one operation (`Lookup` takes only the read
lock and leaves the map unchanged). -/
def step (m : SMap) : Op → SMap
  | .ins k v => (smInsert m k v).2
  | .er k => (smErase m k).2
  | .look k => (smLookup m k "").2.2

/-- Run a sequence of operations. -/
def run (m : SMap) (L : List Op) : SMap :=
  L.foldl step m

/-- Key uniqueness: the keys stored in the map are pairwise distinct. -/
def keysNodup (m : SMap) : Prop :=
  (m.map Prod.fst).Nodup

/-! ## The benchmark harness (`MicroBenchmark<int, string>`) -/

/-- `max_key_ = 1024 * 1024`. -/
def maxKey : Nat := 1024 * 1024

/-- The value `string(1000, 'a')` used by `Prepop` and `RunWrite`. -/
def valA : String := String.mk (List.replicate 1000 'a')

/-- Conversion of a nonnegative `long` to a C++ 32-bit `int`, wrapping
modulo `2^32` (the behavior of the target platform). -/
def toInt32 (n : Nat) : Int :=
  if n % 2 ^ 32 < 2 ^ 31 then ((n % 2 ^ 32 : Nat) : Int)
  else ((n % 2 ^ 32 : Nat) : Int) - 2 ^ 32

/-- Key targeted by `RunWrite` and `RunErase`: `random() + max_key_`,
converted from `long` to the `int` key type.  `r` is the draw of
`random()`, a value in `[0, 2^31)`. -/
def writerKey (r : Nat) : Int :=
  toInt32 (r + maxKey)

/-- Key targeted by `RunRead`: `int k = random() % max_key_`. -/
def readerKey (r : Nat) : Int :=
  ((r % maxKey : Nat) : Int)

/-- `Prepop` run against the baseline map: insert keys `0, 1, ..., n-1` in
order, each with value `string(1000, 'a')`. -/
def prepop (n : Nat) : SMap :=
  (List.range n).foldl (fun m i => (smInsert m (Int.ofNat i) valA).2) []

/-- One loop iteration of a harness worker thread, identified by the draw
`r` of `random()` it uses. -/
inductive HOp where
  | hwrite (r : Nat)
  | hread (r : Nat)
  | herase (r : Nat)

/-- Effect of one worker iteration on the baseline map: `RunWrite` inserts
at `random() + max_key_`, `RunRead` looks up `random() % max_key_` (no state
change), `RunErase` erases at `random() + max_key_`. -/
def harnessStep (m : SMap) : HOp → SMap
  | .hwrite r => (smInsert m (writerKey r) valA).2
  | .hread r => (smLookup m (readerKey r) "").2.2
  | .herase r => (smErase m (writerKey r)).2

/-- The `random()` draw of a worker iteration. -/
def hopDraw : HOp → Nat
  | .hwrite r => r
  | .hread r => r
  | .herase r => r

/-- Run a sequence of worker iterations. -/
def harnessRun (m : SMap) (L : List HOp) : SMap :=
  L.foldl harnessStep m

/-! ## The `ScalableHashMap` wrapper -/

/-- A node of the scalable hash table: `struct Node { int key_; string val_; }`. -/
structure Node where
  key : Int
  val : String
deriving DecidableEq

/-- The `Equal` functor: `lhs.key_ == rhs.key_`. -/
def nodeEqual (lhs rhs : Node) : Bool :=
  lhs.key == rhs.key

/-- Modelled from the spec: `ScalableHashTable::Find` is not under `src/`;
per the spec it "walks the target chain comparing keys by equality"
(equality being the `Equal` functor, which compares `key_` only) and
reports whether a matching entry was found.  The table state is flattened
to the list of its live nodes. -/
def ScalableHashTable.Find (t : List Node) (n : Node) : Bool :=
  t.any (fun x => nodeEqual x n)

/-- `ScalableHashMap::Lookup`: builds `Node n(key, string())`, takes the
shard's read lock, and returns `impl_.Find(n, nullptr)` — the out-pointer
passed to `Find` is `nullptr`, not `val`, so the caller's buffer can never
be written; the result pairs the found flag with the final `*val`. -/
def shLookup (t : List Node) (k : Int) (val : String) : Bool × String :=
  (ScalableHashTable.Find t ⟨k, ""⟩, val)

/-! ## Helper lemmas -/

theorem memKey_iff {m : SMap} {k : Int} :
    memKey m k = true ↔ ∃ v, (k, v) ∈ m := by
  constructor
  · intro h
    rcases List.find?_isSome.mp h with ⟨p, hp, hmatch⟩
    have hk : p.1 = k := by simpa [keyMatch] using hmatch
    exact ⟨p.2, by simpa [← hk] using hp⟩
  · rintro ⟨v, hv⟩
    exact List.find?_isSome.mpr ⟨(k, v), hv, by simp [keyMatch]⟩

theorem memKey_false_iff {m : SMap} {k : Int} :
    memKey m k = false ↔ m.find? (keyMatch k) = none := by
  unfold memKey
  cases m.find? (keyMatch k) <;> simp

theorem mem_eraseP_of_neg {α : Type} {p : α → Bool} {x : α} {l : List α}
    (hx : x ∈ l) (hp : p x = false) : x ∈ l.eraseP p := by
  induction l with
  | nil => cases hx
  | cons a l ih =>
    rw [List.eraseP_cons]
    cases ha : p a with
    | true =>
      simp only [ha, cond_true]
      rcases List.mem_cons.mp hx with rfl | h
      · rw [ha] at hp; cases hp
      · exact h
    | false =>
      simp only [ha, cond_false]
      rcases List.mem_cons.mp hx with rfl | h
      · exact List.mem_cons_self x _
      · exact List.mem_cons_of_mem a (ih h)

theorem memKey_insert_self (m : SMap) (k : Int) (v : String) :
    memKey (smInsert m k v).2 k = true := by
  unfold smInsert
  by_cases h : (m.find? (keyMatch k)).isSome
  · simp only [h, if_true]
    exact h
  · simp only [h, if_false, Bool.false_eq_true]
    simp [memKey, List.find?_cons, keyMatch]

theorem memKey_insert_of {m : SMap} {j : Int} (k : Int) (v : String)
    (h : memKey m j = true) : memKey (smInsert m k v).2 j = true := by
  unfold smInsert
  by_cases hk : (m.find? (keyMatch k)).isSome
  · simpa [hk] using h
  · simp only [hk, if_false, Bool.false_eq_true]
    rcases memKey_iff.mp h with ⟨w, hw⟩
    exact memKey_iff.mpr ⟨w, List.mem_cons_of_mem _ hw⟩

theorem memKey_erase_of_ne {m : SMap} {j k : Int} (hne : j ≠ k)
    (h : memKey m j = true) : memKey (smErase m k).2 j = true := by
  unfold smErase
  cases hf : m.find? (keyMatch k) with
  | none => simpa using h
  | some p =>
    simp only
    rcases memKey_iff.mp h with ⟨w, hw⟩
    refine memKey_iff.mpr ⟨w, mem_eraseP_of_neg hw ?_⟩
    simp [keyMatch, hne]

theorem insert_of_mem {m : SMap} {k : Int} (v : String)
    (h : memKey m k = true) : smInsert m k v = (true, m) := by
  unfold smInsert
  simp [memKey] at h
  simp [h]

theorem countKey_eq_zero {m : SMap} {k : Int}
    (h : memKey m k = false) : countKey m k = 0 := by
  have hall := memKey_false_iff.mp h
  rw [List.find?_eq_none] at hall
  unfold countKey
  rw [List.filter_eq_nil_iff.mpr fun x hx => by simpa using hall x hx]
  rfl

theorem step_preserves_memKey {m : SMap} {k : Int} {op : Op}
    (hop : op ≠ Op.er k) (h : memKey m k = true) :
    memKey (step m op) k = true := by
  cases op with
  | ins a v => exact memKey_insert_of a v h
  | er a =>
    have hne : k ≠ a := fun hka => hop (by rw [hka])
    exact memKey_erase_of_ne hne h
  | look a => simpa [step, smLookup] using h

theorem run_preserves_memKey {k : Int} :
    ∀ (L : List Op) (m : SMap), (∀ op ∈ L, op ≠ Op.er k) →
      memKey m k = true → memKey (run m L) k = true := by
  intro L
  induction L with
  | nil => intro m _ h; simpa [run] using h
  | cons a L ih =>
    intro m hops h
    have ha : a ≠ Op.er k := hops a (List.mem_cons_self a L)
    have hrest : ∀ op ∈ L, op ≠ Op.er k :=
      fun op hop => hops op (List.mem_cons_of_mem a hop)
    simpa [run, List.foldl_cons] using
      ih (step m a) hrest (step_preserves_memKey ha h)

theorem prepop_succ (n : Nat) :
    prepop (n + 1) = (smInsert (prepop n) (Int.ofNat n) valA).2 := by
  unfold prepop
  rw [List.range_succ, List.foldl_append]
  rfl

theorem memKey_prepop : ∀ {n i : Nat}, i < n →
    memKey (prepop n) (Int.ofNat i) = true := by
  intro n
  induction n with
  | zero => intro i h; omega
  | succ n ih =>
    intro i h
    rw [prepop_succ]
    rcases Nat.lt_succ_iff_lt_or_eq.mp h with h | rfl
    · exact memKey_insert_of _ _ (ih h)
    · exact memKey_insert_self _ _ _

theorem keysNodup_insert {m : SMap} (k : Int) (v : String)
    (h : keysNodup m) : keysNodup (smInsert m k v).2 := by
  unfold smInsert
  cases hf : (m.find? (keyMatch k)).isSome with
  | true => simpa [hf] using h
  | false =>
    simp only [hf, Bool.false_eq_true, if_false]
    have hnone : m.find? (keyMatch k) = none := by
      cases hx : m.find? (keyMatch k)
      · rfl
      · rw [hx] at hf; cases hf
    have hnotin : k ∉ m.map Prod.fst := by
      intro hk
      rcases List.mem_map.mp hk with ⟨p, hp, hpk⟩
      have := List.find?_eq_none.mp hnone p hp
      simp [keyMatch, hpk] at this
    unfold keysNodup
    rw [List.map_cons]
    exact List.nodup_cons.mpr ⟨hnotin, h⟩

theorem keysNodup_erase {m : SMap} (k : Int)
    (h : keysNodup m) : keysNodup (smErase m k).2 := by
  unfold smErase
  cases hf : m.find? (keyMatch k) with
  | none => exact h
  | some p =>
    exact List.Nodup.sublist
      (List.Sublist.map Prod.fst (List.eraseP_sublist m)) h

theorem keysNodup_step {m : SMap} (op : Op)
    (h : keysNodup m) : keysNodup (step m op) := by
  cases op with
  | ins k v => exact keysNodup_insert k v h
  | er k => exact keysNodup_erase k h
  | look k => exact h

theorem keysNodup_run : ∀ (L : List Op) (m : SMap),
    keysNodup m → keysNodup (run m L) := by
  intro L
  induction L with
  | nil => intro m h; exact h
  | cons a L ih =>
    intro m h
    simpa [run, List.foldl_cons] using ih (step m a) (keysNodup_step a h)

theorem countKey_le_one_of_nodup {m : SMap} (k : Int)
    (h : keysNodup m) : countKey m k ≤ 1 := by
  induction m with
  | nil => simp [countKey]
  | cons p m ih =>
    have hm : keysNodup m := (List.nodup_cons.mp h).2
    have hp : p.1 ∉ m.map Prod.fst := (List.nodup_cons.mp h).1
    unfold countKey
    rw [List.filter_cons]
    cases hmatch : keyMatch k p with
    | false => exact ih hm
    | true =>
      have hk : p.1 = k := by simpa [keyMatch] using hmatch
      simp only [if_true]
      have hz : countKey m k = 0 := by
        apply countKey_eq_zero
        cases hmem : memKey m k with
        | false => rfl
        | true =>
          rcases memKey_iff.mp hmem with ⟨w, hw⟩
          exact absurd (List.mem_map.mpr ⟨(k, w), hw, rfl⟩) (hk ▸ hp)
      unfold countKey at hz
      simp [hz]

theorem writerKey_not_in_range {r : Nat} (h : r < 2 ^ 31) :
    ¬(0 ≤ writerKey r ∧ writerKey r < (maxKey : Int)) := by
  unfold writerKey toInt32 maxKey at *
  have hmod : (r + 1024 * 1024) % 2 ^ 32 = r + 1024 * 1024 :=
    Nat.mod_eq_of_lt (by omega)
  rw [hmod]
  split <;> push_cast <;> omega

theorem readerKey_in_range (r : Nat) :
    0 ≤ readerKey r ∧ readerKey r < (maxKey : Int) := by
  unfold readerKey maxKey
  have : r % (1024 * 1024) < 1024 * 1024 := Nat.mod_lt r (by omega)
  push_cast
  omega

theorem harnessStep_preserves {m : SMap} {op : HOp}
    (hop : hopDraw op < 2 ^ 31)
    (h : ∀ i : Nat, i < maxKey → memKey m (Int.ofNat i) = true) :
    ∀ i : Nat, i < maxKey → memKey (harnessStep m op) (Int.ofNat i) = true := by
  intro i hi
  cases op with
  | hwrite r => exact memKey_insert_of _ _ (h i hi)
  | hread r => exact h i hi
  | herase r =>
    refine memKey_erase_of_ne ?_ (h i hi)
    intro heq
    have h0 : (0 : Int) ≤ Int.ofNat i := Int.ofNat_nonneg i
    have h1 : Int.ofNat i < (maxKey : Int) := by
      simpa using Int.ofNat_lt.mpr hi
    rw [heq] at h0 h1
    exact writerKey_not_in_range hop ⟨h0, h1⟩

theorem harnessRun_preserves : ∀ (L : List HOp) (m : SMap),
    (∀ op ∈ L, hopDraw op < 2 ^ 31) →
    (∀ i : Nat, i < maxKey → memKey m (Int.ofNat i) = true) →
    ∀ i : Nat, i < maxKey → memKey (harnessRun m L) (Int.ofNat i) = true := by
  intro L
  induction L with
  | nil => intro m _ h; exact h
  | cons a L ih =>
    intro m hops h
    have ha := hops a (List.mem_cons_self a L)
    have hrest : ∀ op ∈ L, hopDraw op < 2 ^ 31 :=
      fun op hop => hops op (List.mem_cons_of_mem a hop)
    simpa [harnessRun, List.foldl_cons] using
      ih (harnessStep m a) hrest (harnessStep_preserves ha h)

theorem smInsert_absent {m : SMap} {k : Int} (v : String)
    (h : memKey m k = false) : (smInsert m k v).2 = (k, v) :: m := by
  unfold smInsert
  rw [memKey_false_iff.mp h]
  rfl

theorem smFind_cons_self (m : SMap) (k : Int) (v : String) :
    smFind ((k, v) :: m) k = some v := by
  simp [smFind, List.find?_cons, keyMatch]

theorem memKey_cons_self (m : SMap) (k : Int) (v : String) :
    memKey ((k, v) :: m) k = true := by
  simp [memKey, List.find?_cons, keyMatch]

theorem countKey_cons_self (m : SMap) (k : Int) (v : String) :
    countKey ((k, v) :: m) k = countKey m k + 1 := by
  simp [countKey, List.filter_cons, keyMatch]

theorem smFind_eq_none_iff {m : SMap} {k : Int} :
    smFind m k = none ↔ m.find? (keyMatch k) = none := by
  unfold smFind
  cases m.find? (keyMatch k) <;> simp

/-! ## Claims -/

/-- C1 counterexample: as stated, `Lookup(k, &val)` is claimed to copy the
stored value into `*val` when a matching entry exists.  On the one-entry map
`{1 ↦ "y"}` the baseline `Lookup` finds the key (returns `true`) yet leaves
the caller's buffer `""` unchanged instead of setting it to `"y"`. -/
theorem lookup_copies_value_counterexample :
    (smLookup [((1 : Int), "y")] 1 "").1 = true ∧
    ¬(smLookup [((1 : Int), "y")] 1 "").2.1 = "y" := by
  decide

/-- C1 (amended): for every key `k` and buffer `val`, `Lookup(k, &val)`
walks the chain comparing keys by equality and returns `true` exactly when
the key is found, but it never copies the stored value: the buffer is left
unchanged.  This holds for both `SimpleHashMap::Lookup` and
`ScalableHashMap::Lookup` (which passes `nullptr`, not `val`, to `Find`). -/
theorem lookup_reports_membership_without_copy
    (m : SMap) (k : Int) (val : String) (t : List Node) :
    ((smLookup m k val).1 = true ↔ ∃ v, (k, v) ∈ m) ∧
    (smLookup m k val).2.1 = val ∧
    ((shLookup t k val).1 = true ↔ ∃ nd ∈ t, nd.key = k) ∧
    (shLookup t k val).2 = val := by
  refine ⟨memKey_iff, rfl, ?_, rfl⟩
  unfold shLookup ScalableHashTable.Find nodeEqual
  simp [List.any_eq_true]

/-- C2: if key `k` is already stored with value `v1`, a further
`Insert(k, v2)` leaves the whole map (hence the stored value `v1`)
unchanged and still returns `true`; if `k` is absent, `Insert(k, v2)`
returns `true` and afterwards `k` is stored with value `v2`. -/
theorem insert_no_overwrite (m : SMap) (k : Int) (v1 v2 : String) :
    (smFind m k = some v1 → smInsert m k v2 = (true, m)) ∧
    (smFind m k = none →
      (smInsert m k v2).1 = true ∧ smFind (smInsert m k v2).2 k = some v2) := by
  constructor
  · intro h
    apply insert_of_mem
    unfold smFind at h
    unfold memKey
    cases hf : m.find? (keyMatch k)
    · rw [hf] at h; cases h
    · rfl
  · intro h
    have hmem : memKey m k = false := by
      unfold memKey
      rw [smFind_eq_none_iff.mp h]
      rfl
    refine ⟨rfl, ?_⟩
    rw [smInsert_absent v2 hmem]
    exact smFind_cons_self m k v2

/-- C2 witness: on `{5 ↦ "a"}`, `Insert(5, "b")` returns `true` and leaves
the map unchanged; on the empty map, `Insert(5, "b")` returns `true` and
stores `"b"`. -/
theorem insert_no_overwrite_witness :
    (smFind [((5 : Int), "a")] 5 = some "a" ∧
      smInsert [((5 : Int), "a")] 5 "b" = (true, [((5 : Int), "a")])) ∧
    (smFind ([] : SMap) 5 = none ∧
      (smInsert ([] : SMap) 5 "b").1 = true ∧
      smFind (smInsert ([] : SMap) 5 "b").2 5 = some "b") :=
  ⟨⟨by decide, (insert_no_overwrite [((5 : Int), "a")] 5 "a" "b").1 (by decide)⟩,
   ⟨by decide, (insert_no_overwrite [] 5 "a" "b").2 (by decide)⟩⟩

/-- C3: `Erase(k)` returns `true` iff an entry with key `k` was present and
removed (the length drops by exactly one); when `k` is absent it returns
`false` and leaves the map state completely unchanged. -/
theorem erase_iff_removed (m : SMap) (k : Int) :
    ((smErase m k).1 = true ↔ memKey m k = true) ∧
    (memKey m k = false → smErase m k = (false, m)) ∧
    (memKey m k = true → ((smErase m k).2).length + 1 = m.length) := by
  refine ⟨?_, ?_, ?_⟩
  · unfold smErase memKey
    cases m.find? (keyMatch k) <;> simp
  · intro h
    unfold smErase
    rw [memKey_false_iff.mp h]
  · intro h
    rcases List.find?_isSome.mp h with ⟨p, hp, hmatch⟩
    have hlen := List.length_eraseP_of_mem hp hmatch
    have hpos : 1 ≤ m.length := List.length_pos.mpr (by rintro rfl; cases hp)
    unfold smErase
    cases hf : m.find? (keyMatch k)
    · rw [memKey_false_iff.mpr hf] at h; cases h
    · simpa [hlen] using by omega

/-- C3 witness: on `{7 ↦ "z"}`, `Erase(7)` returns `true` and removes the
single entry; on the same map, `Erase(8)` returns `false` and changes
nothing. -/
theorem erase_iff_removed_witness :
    (((smErase [((7 : Int), "z")] 7).1 = true ↔
        memKey [((7 : Int), "z")] 7 = true) ∧
      (memKey [((7 : Int), "z")] 7 = true →
        ((smErase [((7 : Int), "z")] 7).2).length + 1 = 1)) ∧
    (memKey [((7 : Int), "z")] 8 = false →
      smErase [((7 : Int), "z")] 8 = (false, [((7 : Int), "z")])) :=
  ⟨⟨(erase_iff_removed [((7 : Int), "z")] 7).1,
    (erase_iff_removed [((7 : Int), "z")] 7).2.2⟩,
   (erase_iff_removed [((7 : Int), "z")] 8).2.1⟩

/-- C4 counterexample: as stated, after a successful `Insert(k, v)` with no
intervening `Erase(k)`, `Lookup(k, &out)` is claimed to set `out` to `v`.
From the empty map, `Insert(0, "x")` returns `true` and the immediate
`Lookup(0, &out)` returns `true`, yet `out` stays `""` instead of
becoming `"x"`. -/
theorem insert_lookup_roundtrip_counterexample :
    (smInsert [] 0 "x").1 = true ∧
    (smLookup (smInsert [] 0 "x").2 0 "").1 = true ∧
    ¬(smLookup (smInsert [] 0 "x").2 0 "").2.1 = "x" := by
  decide

/-- C4 (amended): if `Insert(k, v)` returns `true` (it always does) and no
`Erase(k)` intervenes, a subsequent `Lookup(k, &out)` returns `true`, but
`out` is left unchanged rather than set to `v`: the baseline `Lookup` never
copies the stored value. -/
theorem insert_lookup_roundtrip_amended
    (m : SMap) (k : Int) (v out : String) (L : List Op)
    (hL : ∀ op ∈ L, op ≠ Op.er k) :
    (smInsert m k v).1 = true ∧
    (smLookup (run (smInsert m k v).2 L) k out).1 = true ∧
    (smLookup (run (smInsert m k v).2 L) k out).2.1 = out := by
  refine ⟨rfl, ?_, rfl⟩
  exact run_preserves_memKey L (smInsert m k v).2 hL (memKey_insert_self m k v)

/-- C4 witness: insert key 0 into the empty map, run an unrelated insert
and an erase of a different key, then look key 0 up: found, buffer
untouched. -/
theorem insert_lookup_roundtrip_amended_witness :
    (∀ op ∈ ([Op.ins 1 "q", Op.er 2] : List Op), op ≠ Op.er 0) ∧
    (smInsert [] 0 "x").1 = true ∧
    (smLookup (run (smInsert [] 0 "x").2 [Op.ins 1 "q", Op.er 2]) 0 "z").1 = true ∧
    (smLookup (run (smInsert [] 0 "x").2 [Op.ins 1 "q", Op.er 2]) 0 "z").2.1 = "z" :=
  ⟨by decide, insert_lookup_roundtrip_amended [] 0 "x" "z" _ (by decide)⟩

/-- C5: from the empty baseline map, `Erase(42)` returns `false`; after
`Insert(42, "x")`, `Erase(42)` returns `true`; and a `Lookup(42)` issued
after that erase returns `false`. -/
theorem erase_insert_erase_lookup_scenario :
    (smErase [] 42).1 = false ∧
    (smInsert (smErase [] 42).2 42 "x").1 = true ∧
    (smErase (smInsert (smErase [] 42).2 42 "x").2 42).1 = true ∧
    (smLookup (smErase (smInsert (smErase [] 42).2 42 "x").2 42).2 42 "").1 = false := by
  decide

/-- C6: after any finite sequence of completed `Insert`/`Erase`/`Lookup`
calls starting from the empty baseline map, at most one live entry per key
exists in the whole table. -/
theorem key_uniqueness_invariant (L : List Op) (k : Int) :
    countKey (run [] L) k ≤ 1 :=
  countKey_le_one_of_nodup k
    (keysNodup_run L [] (by simp [keysNodup]))

/-- C7: the harness first inserts every key of `[0, max_key_)` sequentially
(every such `Insert` returns `true`, so `Prepop`'s assert never fires, and
afterwards every key of the range is present); writer iterations target only
`random() + max_key_`, which never lies in `[0, max_key_)`; reader
iterations target `random() % max_key_`, always inside the range; and an
eraser iteration erases exactly the writer-style key `random() + max_key_`. -/
theorem harness_key_targeting :
    (∀ (m : SMap) (k : Int) (v : String), (smInsert m k v).1 = true) ∧
    (∀ i : Nat, i < maxKey → memKey (prepop maxKey) (Int.ofNat i) = true) ∧
    (∀ r : Nat, r < 2 ^ 31 →
      ¬(0 ≤ writerKey r ∧ writerKey r < (maxKey : Int))) ∧
    (∀ r : Nat, 0 ≤ readerKey r ∧ readerKey r < (maxKey : Int)) ∧
    (∀ (m : SMap) (r : Nat),
      harnessStep m (HOp.herase r) = (smErase m (writerKey r)).2) :=
  ⟨fun _ _ _ => rfl,
   fun _ hi => memKey_prepop hi,
   fun _ hr => writerKey_not_in_range hr,
   readerKey_in_range,
   fun _ _ => rfl⟩

/-- C7 witness: key 5 is below `max_key_` and present after `Prepop`; the
writer key derived from the draw 3 does not lie in `[0, max_key_)`. -/
theorem harness_key_targeting_witness :
    (5 < maxKey ∧ memKey (prepop maxKey) (Int.ofNat 5) = true) ∧
    (3 < 2 ^ 31 ∧ ¬(0 ≤ writerKey 3 ∧ writerKey 3 < (maxKey : Int))) :=
  ⟨⟨by decide, harness_key_targeting.2.1 5 (by decide)⟩,
   ⟨by decide, harness_key_targeting.2.2.1 3 (by decide)⟩⟩

/-- C8: every operation of the baseline map holds the single RWMutex for
its entire body, so two concurrent `Insert`s of one key execute in the two
possible lock-acquisition orders; in either order, exactly one insert wins:
exactly one live entry for the key exists afterwards, holding the value of
whichever insert acquired the lock first, never both and never neither. -/
theorem concurrent_inserts_one_winner
    (m : SMap) (k : Int) (v1 v2 : String) (L : List Op)
    (hm : memKey m k = false)
    (hL : L = [Op.ins k v1, Op.ins k v2] ∨ L = [Op.ins k v2, Op.ins k v1]) :
    countKey (run m L) k = 1 ∧
    (smFind (run m L) k = some v1 ∨ smFind (run m L) k = some v2) := by
  have key : ∀ w1 w2 : String,
      run m [Op.ins k w1, Op.ins k w2] = (k, w1) :: m := by
    intro w1 w2
    have h1 : step m (Op.ins k w1) = (k, w1) :: m := by
      simpa [step] using smInsert_absent w1 hm
    have h2 : step ((k, w1) :: m) (Op.ins k w2) = (k, w1) :: m := by
      have := insert_of_mem w2 (memKey_cons_self m k w1)
      simp [step, this]
    simp [run, List.foldl_cons, h1, h2]
  have hz : countKey m k = 0 := countKey_eq_zero hm
  rcases hL with rfl | rfl
  · rw [key v1 v2]
    exact ⟨by rw [countKey_cons_self, hz], Or.inl (smFind_cons_self m k v1)⟩
  · rw [key v2 v1]
    exact ⟨by rw [countKey_cons_self, hz], Or.inr (smFind_cons_self m k v2)⟩

/-- C8 witness: from the empty map, the interleaving that runs
`Insert(0, "p")` before `Insert(0, "q")` leaves exactly one live entry for
key 0, holding `"p"` or `"q"`. -/
theorem concurrent_inserts_one_winner_witness :
    memKey [] 0 = false ∧
    countKey (run [] [Op.ins 0 "p", Op.ins 0 "q"]) 0 = 1 ∧
    (smFind (run [] [Op.ins 0 "p", Op.ins 0 "q"]) 0 = some "p" ∨
      smFind (run [] [Op.ins 0 "p", Op.ins 0 "q"]) 0 = some "q") :=
  ⟨by decide,
   concurrent_inserts_one_winner [] 0 "p" "q" _ (by decide) (Or.inl rfl)⟩

/-- C9: the `assert(status)` of `RunRead` can never fire against the
baseline map: after `Prepop` populates `[0, max_key_)` and any sequence of
writer, reader and eraser iterations runs (each using a `random()` draw
below `2^31`), looking up `random() % max_key_` still finds the key —
writer/eraser keys `random() + max_key_` never fall in `[0, max_key_)`,
even via the signed-int wraparound of the long-to-int conversion, so no
pre-populated key is ever erased. -/
theorem reader_assert_never_fires
    (L : List HOp) (hL : ∀ op ∈ L, hopDraw op < 2 ^ 31) (r : Nat) :
    (smLookup (harnessRun (prepop maxKey) L) (readerKey r) "").1 = true := by
  have hmem :=
    harnessRun_preserves L (prepop maxKey) hL
      (fun i hi => memKey_prepop hi) (r % maxKey)
      (Nat.mod_lt r (by unfold maxKey; omega))
  simpa [smLookup, memKey, readerKey] using hmem

/-- C9 witness: after a writer iteration (draw 3), an eraser iteration
(draw 5) and a reader iteration (draw 0), the reader lookup of the key
derived from draw 7 still succeeds. -/
theorem reader_assert_never_fires_witness :
    (∀ op ∈ ([HOp.hwrite 3, HOp.herase 5, HOp.hread 0] : List HOp),
      hopDraw op < 2 ^ 31) ∧
    (smLookup (harnessRun (prepop maxKey) [HOp.hwrite 3, HOp.herase 5, HOp.hread 0])
      (readerKey 7) "").1 = true :=
  ⟨by decide, reader_assert_never_fires _ (by decide) 7⟩

/-- C10: `Lookup(k, &val)` leaves both the map contents and the
caller-supplied buffer unchanged, even when the key is found: the baseline
body is a pure membership test, and the scalable wrapper passes `nullptr`
(never `val`) to `Find`. -/
theorem lookup_frame (m : SMap) (k : Int) (val : String) (t : List Node) :
    (smLookup m k val).2.1 = val ∧
    (smLookup m k val).2.2 = m ∧
    (shLookup t k val).2 = val :=
  ⟨rfl, rfl, rfl⟩

end Microbench
